import Mathlib

/-!
Verification development for the OpenClaw monitor dashboard service
(src/monitor/monitor.js, V4.1.1 script).

The embedding below translates the inbox router (processInbox), the session
registry reader (parseSessionsFile) and the session task reader (getTasks)
into executable Lean definitions.  JavaScript strings are modelled as Lean
strings (ASCII-faithful: the regex classes \s and \w are modelled over their
ASCII members, which covers every character class the script's patterns and
the metadata format use).  File-system side effects are modelled as an
explicit trace of effects; an I/O exception while reading a file is modelled
by a file record whose content is none.  Date.now() is modelled by a single
tick clock passed as a parameter.
-/

namespace Monitor

/-! ### JavaScript string primitives (ASCII-faithful) -/

/-- Membership in the JS regex class \s, restricted to ASCII. -/
def isJsSpace (c : Char) : Bool :=
  c = ' ' || c = '\t' || c = '\n' || c = '\r' || c = '\x0b' || c = '\x0c'

/-- Membership in the JS regex class \w (exactly ASCII [A-Za-z0-9_]). -/
def isWordChar (c : Char) : Bool :=
  c.isAlpha || c.isDigit || c = '_'

/-- Membership in the regex class ["'] used by the metadata patterns. -/
def isQuote (c : Char) : Bool :=
  c = '"' || c = '\''

/-- Drops a literal from the front of a list; none when the literal is not there. -/
def dropLit : List Char → List Char → Option (List Char)
  | [], l => some l
  | _ :: _, [] => none
  | k :: ks, c :: cs => if k = c then dropLit ks cs else none

/-- Index of the first occurrence of a literal substring, scanning left to right. -/
def findSub (pat : List Char) : List Char → Option Nat
  | [] => if pat.isEmpty then some 0 else none
  | c :: cs =>
    if (dropLit pat (c :: cs)).isSome then some 0
    else (findSub pat cs).map (· + 1)

/-- Model of String.prototype.trim on ASCII whitespace. -/
def jsTrimChars (l : List Char) : List Char :=
  ((l.dropWhile isJsSpace).reverse.dropWhile isJsSpace).reverse

/-- Model of String.prototype.trim, as used for task titles. -/
def jsTrim (s : String) : String :=
  String.mk (jsTrimChars s.toList)

/-- Model of file.replace(".md", ""): removes the first occurrence of ".md". -/
def removeFirstMd (name : String) : String :=
  match findSub (".md".toList) name.toList with
  | none => name
  | some i => String.mk (name.toList.take i ++ name.toList.drop (i + 3))

/-- Model of content.split("\n")[0]. -/
def firstLineOf (c : String) : String :=
  String.mk (c.toList.takeWhile (· ≠ '\n'))

/-- Model of String.prototype.endsWith. -/
def jsEndsWith (s pat : String) : Bool :=
  (dropLit pat.toList.reverse s.toList.reverse).isSome

/-- ASCII lower-casing of one character (String.prototype.toLowerCase is
applied only to ASCII pool labels in the script). -/
def asciiLower (c : Char) : Char :=
  if c.isUpper then Char.ofNat (c.toNat + 32) else c

/-- Model of String.prototype.includes. -/
def jsIncludes (s sub : String) : Bool :=
  (findSub sub.toList s.toList).isSome

/-! ### The metadata regexes of processInbox

The script extracts metadata with content.match on the pattern
key + colon + \s* + an optional quote + a captured \w+ run, and rewrites the
status field with content.replace on the pattern
status: + \s* + optional quote + the literal pending + optional quote.
Both are modelled as leftmost-match scanners with the exact backtracking
behaviour of the JS engine on these patterns (the optional quote cannot
backtrack into \s* or \w+ because the character classes are disjoint). -/

/-- Value part after the whitespace run: ["']?(\w+)["']? at the head of the
list, returning the captured word. -/
def valAfterSpaces : List Char → Option (List Char)
  | [] => none
  | q :: qs =>
    if isQuote q then
      let w := qs.takeWhile isWordChar
      if w.isEmpty then none else some w
    else
      let w := (q :: qs).takeWhile isWordChar
      if w.isEmpty then none else some w

/-- Attempts the value part \s*["']?(\w+)["']? at the head of the list,
returning the captured word. -/
def matchValHere (r : List Char) : Option (List Char) :=
  valAfterSpaces (r.dropWhile isJsSpace)

/-- Leftmost match of key + \s*["']?(\w+)["']?, returning the capture. -/
def findKeyVal (key : List Char) : List Char → Option (List Char)
  | [] => none
  | c :: cs =>
    match dropLit key (c :: cs) with
    | some rest =>
      match matchValHere rest with
      | some w => some w
      | none => findKeyVal key cs
    | none => findKeyVal key cs

/-- Status parsed from a task file: capture of /status:\s*["']?(\w+)["']?/,
with "unknown" when there is no match. -/
def statusOf (c : String) : String :=
  match findKeyVal ("status:".toList) c.toList with
  | some w => String.mk w
  | none => "unknown"

/-- Kind parsed from a task file: capture of /type:\s*["']?(\w+)["']?/. -/
def typeOf (c : String) : Option String :=
  (findKeyVal ("type:".toList) c.toList).map String.mk

/-- Length contributed by the closing ["']? of the pending pattern. -/
def closeQ : List Char → Nat
  | [] => 0
  | c :: _ => if isQuote c then 1 else 0

/-- Pending part after the whitespace run: ["']?pending["']? at the head of
the list, returning the matched length including spLen whitespace characters. -/
def pendingAfterSpaces (spLen : Nat) : List Char → Option Nat
  | [] => none
  | q :: qs =>
    if isQuote q then
      match dropLit ("pending".toList) qs with
      | none => none
      | some r3 => some (spLen + 1 + 7 + closeQ r3)
    else
      match dropLit ("pending".toList) (q :: qs) with
      | none => none
      | some r3 => some (spLen + 7 + closeQ r3)

/-- Attempts \s*["']?pending["']? at the head of the list (the part of the
replace pattern after the status: literal), returning its matched length. -/
def pendingTailLen (r : List Char) : Option Nat :=
  pendingAfterSpaces (r.takeWhile isJsSpace).length (r.dropWhile isJsSpace)

/-- Attempts the full pattern status:\s*["']?pending["']? at the head. -/
def matchPendingHere (l : List Char) : Option Nat :=
  match dropLit ("status:".toList) l with
  | none => none
  | some r => (pendingTailLen r).map (7 + ·)

/-- Leftmost match of /status:\s*["']?pending["']?/ as (start index, length). -/
def findPending : List Char → Option (Nat × Nat)
  | [] => none
  | c :: cs =>
    match matchPendingHere (c :: cs) with
    | some n => some (0, n)
    | none => (findPending cs).map (fun p => (p.1 + 1, p.2))

/-- Model of content.replace(/status:\s*["']?pending["']?/, 'status: "dispatched"'):
the leftmost match span is replaced by the literal replacement, every byte
outside the span is kept. -/
def jsReplaceStatusPending (content : String) : String :=
  match findPending content.toList with
  | none => content
  | some (i, n) =>
    String.mk (content.toList.take i ++ ("status: \"dispatched\"").toList
      ++ content.toList.drop (i + n))

/-! ### Title derivation of processInbox -/

/-- Title of a task file, as derived by processInbox: the first line with the
hash marks stripped when it is a "# " or "## " heading, otherwise the first
line trimmed and cut to 50 characters when it is non-blank, otherwise the
file name with its first ".md" removed. -/
def titleOf (name c : String) : String :=
  let fl := c.toList.takeWhile (· ≠ '\n')
  match dropLit ("# ".toList) fl with
  | some r => String.mk (jsTrimChars r)
  | none =>
    match dropLit ("## ".toList) fl with
    | some r => String.mk (jsTrimChars r)
    | none =>
      if (jsTrimChars fl).isEmpty then removeFirstMd name
      else String.mk ((jsTrimChars fl).take 50)

/-! ### Data model of the inbox router -/

/-- One worker entry as produced by parseSessionsFile and consumed by the
router (the script calls these agents). -/
structure AgentView where
  key : String
  label : String
  model : String
  status : String
  ageMs : Int
  tokens : Int
  sessionId : String
  updatedAt : Option Int
  sessionFile : Option String
  deriving Repr, DecidableEq

/-- One inbox directory entry. content = none models fs.statSync or
fs.readFileSync throwing for this file; mtimeMs is Math.floor(stat.mtimeMs). -/
structure InFile where
  name : String
  content : Option String
  mtimeMs : Nat
  deriving Repr, DecidableEq

/-- One display record pushed by processInbox. -/
structure TaskEntry where
  id : String
  title : String
  status : String
  updatedAt : Nat
  deriving Repr, DecidableEq

/-- One file-system or process side effect of the router, in program order. -/
inductive Effect where
  | write (name : String) (content : String)
  | spawn (name : String) (label : String) (model : String)
  deriving Repr, DecidableEq

/-- Result of one router tick: the display list, the ordered effect trace,
the dispatches of this tick as (file name, pre-dispatch content) pairs (the
content captured by the spawn callback for rollback), and whether an I/O
exception aborted the scan. -/
structure TickOut where
  tasks : List TaskEntry
  effs : List Effect
  disps : List (String × String)
  aborted : Bool
  deriving Repr, DecidableEq

/-- Routing rule: kind "coding" goes to tech_team, every other kind to
handyman, with the fixed models of the script. -/
def routeOf (c : String) : String × String :=
  if (typeOf c).getD "general" = "coding" then
    ("tech_team", "google-antigravity/claude-opus-4-5-thinking")
  else
    ("handyman", "google-antigravity/gemini-3-pro-high")

/-- Busy check: some supplied agent has the target label and status active. -/
def isBusy (agents : List AgentView) (targetLabel : String) : Bool :=
  agents.any (fun a => a.label = targetLabel && a.status = "active")

/-- Dispatch decision for one file content against the supplied snapshot. -/
def willDispatch (agents : List AgentView) (c : String) : Bool :=
  decide (statusOf c = "pending") && !(isBusy agents (routeOf c).1)

/-- Display record produced for one readable .md file. -/
def entryOf₀ (agents : List AgentView) (now : Nat) (name : String) (mtime : Nat)
    (c : String) : TaskEntry :=
  if willDispatch agents c then
    ⟨"inbox-" ++ name, titleOf name c, "dispatched", now⟩
  else
    ⟨"inbox-" ++ name, titleOf name c, statusOf c, mtime⟩

/-- Effect trace produced for one readable .md file: the status rewrite then
the spawn request when the file is dispatched, nothing otherwise. -/
def effsOf₀ (agents : List AgentView) (name c : String) : List Effect :=
  if willDispatch agents c then
    [Effect.write name (jsReplaceStatusPending c),
     Effect.spawn name (routeOf c).1 (routeOf c).2]
  else []

/-- Dispatch records produced for one readable .md file. -/
def dispOf₀ (agents : List AgentView) (name c : String) : List (String × String) :=
  if willDispatch agents c then [(name, c)] else []

/-- The scan loop of processInbox.  Non-.md files are skipped before any
file-system access; a file whose read throws aborts the loop (the try/catch
of the script wraps the whole scan), keeping the records and effects
accumulated so far. -/
def processList (agents : List AgentView) (now : Nat) : List InFile → TickOut
  | [] => ⟨[], [], [], false⟩
  | f :: rest =>
    if jsEndsWith f.name ".md" then
      match f.content with
      | none => ⟨[], [], [], true⟩
      | some c =>
        let o := processList agents now rest
        ⟨entryOf₀ agents now f.name f.mtimeMs c :: o.tasks,
         effsOf₀ agents f.name c ++ o.effs,
         dispOf₀ agents f.name c ++ o.disps,
         o.aborted⟩
    else processList agents now rest

/-- Stable insertion placing the new element before the first element it
compares le to; together with isortBy this is the unique stable sort, hence
agrees with Array.prototype.sort of V8 for a total preorder comparator. -/
def insBy {α : Type} (le : α → α → Bool) (a : α) : List α → List α
  | [] => [a]
  | b :: l => if le a b then a :: b :: l else b :: insBy le a l

/-- Stable sort by a boolean comparison. -/
def isortBy {α : Type} (le : α → α → Bool) : List α → List α
  | [] => []
  | a :: l => insBy le a (isortBy le l)

/-- The comparator tasks.sort((a, b) => a.updatedAt - b.updatedAt) as a
boolean le. -/
def leU (a b : TaskEntry) : Bool :=
  a.updatedAt ≤ b.updatedAt

/-- Model of processInbox: scans the given directory listing against the
supplied worker snapshot, then sorts the display list ascending by updatedAt;
when an exception aborted the scan the sort is skipped (the catch returns the
accumulated list directly). -/
def processInbox (agents : List AgentView) (now : Nat) (files : List InFile) :
    TickOut :=
  let o := processList agents now files
  if o.aborted then o else ⟨isortBy leU o.tasks, o.effs, o.disps, false⟩

/-- Rollback writes performed later by the spawn callbacks: each failed
dispatch writes back the exact pre-dispatch content it captured. -/
def rollbackWrites (disps : List (String × String)) (fails : String → Bool) :
    List Effect :=
  disps.filterMap (fun d => if fails d.1 then some (Effect.write d.1 d.2) else none)

/-- Content of a given file after a trace of effects has been applied, given
its initial content. -/
def lastContent (effs : List Effect) (name : String) (init : Option String) :
    Option String :=
  effs.foldl
    (fun acc e =>
      match e with
      | Effect.write n c => if n = name then some c else acc
      | Effect.spawn _ _ _ => acc)
    init

/-- The .md files of a directory listing, in enumeration order. -/
def mdFiles (files : List InFile) : List InFile :=
  files.filter (fun f => jsEndsWith f.name ".md")

/-! ### Worker registry reader (parseSessionsFile) -/

/-- One raw record of sessions.json; Option models an absent field. -/
structure Session where
  sessionId : String
  key : Option String
  label : Option String
  model : Option String
  modelProvider : Option String
  updatedAt : Option Int
  totalTokens : Option Int
  inputTokens : Option Int
  outputTokens : Option Int
  sessionFile : Option String
  deriving Repr, DecidableEq

/-- Model of the JS expression (o || d) on an optional string: an absent or
empty (falsy) value yields the default. -/
def jsOrStr (o : Option String) (d : String) : String :=
  match o with
  | some s => if s = "" then d else s
  | none => d

/-- Model of session.totalTokens || (session.inputTokens +
session.outputTokens) || 0: zero and NaN (from adding absent fields) are
falsy. -/
def jsTokens (s : Session) : Int :=
  let sumPart : Int :=
    match s.inputTokens, s.outputTokens with
    | some i, some o => if i + o = 0 then 0 else i + o
    | _, _ => 0
  match s.totalTokens with
  | some t => if t = 0 then sumPart else t
  | none => sumPart

/-- The static label-translation table of parseSessionsFile. -/
def labelMapping (l : String) : Option String :=
  if l = "coding_team" then some "程式組"
  else if l = "dev_team" then some "開發組"
  else if l = "handyman" then some "雜工"
  else none

/-- The fixed identity of the primary session. -/
def mainSessionId : String := "5907ddda-6411-4999-9578-7e841f351d63"

/-- Per-record body of the Object.values(data).forEach of parseSessionsFile:
derives age, activity status, display label, model and token count. -/
def classifySession (now : Int) (s : Session) : AgentView :=
  let ageMs : Int := now - s.updatedAt.getD 0
  let isActive := ageMs < 300000
  let label0 := jsOrStr s.label "Unknown"
  let label :=
    match labelMapping label0 with
    | some m => m
    | none =>
      if s.sessionId = mainSessionId || s.key = some "agent:main:main" then "羊羊"
      else label0
  { key := s.sessionId
    label := label
    model := jsOrStr s.model (jsOrStr s.modelProvider "unknown")
    status := if isActive then "active" else "idle"
    ageMs := ageMs
    tokens := jsTokens s
    sessionId := s.sessionId
    updatedAt := s.updatedAt
    sessionFile := s.sessionFile }

/-- Number of agents carrying a label (the labelCounts pass). -/
def countLabel (l : String) (as : List AgentView) : Nat :=
  (as.filter (fun a => a.label = l)).length

/-- Second pass of the duplicate-label suffixing: currentCounts is the
per-label counter, total the precomputed labelCounts. -/
def suffixGo (total : String → Nat) : List (String × Nat) → List AgentView → List AgentView
  | _, [] => []
  | cur, a :: rest =>
    if total a.label > 1 && a.label ≠ "羊羊" then
      let n := (cur.lookup a.label).getD 0 + 1
      { a with label := a.label ++ "-" ++ toString n } :: suffixGo total ((a.label, n) :: cur) rest
    else
      a :: suffixGo total cur rest

/-- Duplicate display labels (other than the primary) get a 1-based suffix in
registry iteration order. -/
def suffixStep (as : List AgentView) : List AgentView :=
  suffixGo (fun l => countLabel l as) [] as

/-- The comparator of the final agents.sort as a boolean le: the primary
label sorts first, everything else ascending by ageMs. -/
def agentLe (a b : AgentView) : Bool :=
  if a.label = "羊羊" then true
  else if b.label = "羊羊" then false
  else a.ageMs ≤ b.ageMs

/-- Model of parseSessionsFile on an already-parsed record list (a missing or
unparseable registry file yields the empty record list upstream). -/
def parseSessionsFile (now : Int) (sessions : List Session) : List AgentView :=
  isortBy agentLe (suffixStep (sessions.map (classifySession now)))

/-! ### Session task reader (getTasks) -/

/-- One task record produced by getTasks (updatedAt is copied verbatim from
the session record and may be absent). -/
structure SessTask where
  id : String
  title : String
  status : String
  updatedAt : Option Int
  deriving Repr, DecidableEq

/-- Model of now - session.updatedAt > bound: false when updatedAt is absent
(NaN comparisons are false in JS). -/
def sessOlderThan (now : Int) (s : Session) (bound : Int) : Bool :=
  match s.updatedAt with
  | some u => now - u > bound
  | none => false

/-- The isDone test of getTasks. -/
def sessDone (now : Int) (s : Session) : Bool :=
  (match s.totalTokens with | some t => t > 0 | none => false)
    && sessOlderThan now s 120000

/-- A session is skipped (hidden) when it is done and more than one hour old. -/
def sessSkipped (now : Int) (s : Session) : Bool :=
  sessDone now s && sessOlderThan now s 3600000

/-- The fallback title translation applied when no log-derived title replaced
the label. -/
def fallbackTitle (s : Session) (label : String) : String :=
  if label = "coding_team" then "程式組任務"
  else if label = "dev_team" then "開發組任務"
  else if label = "handyman" then "雜工任務"
  else if label.toList.map asciiLower = "unknown".toList then
    (if jsIncludes s.sessionId "subagent" then "子任務" else "系統維護")
  else label

/-- Title of one session task; titleFromLog models getTaskTitleFromLog (an
asynchronous log read, supplied as an oracle). -/
def sessTitle (titleFromLog : String → Option String) (s : Session) : String :=
  let label := jsOrStr s.label "Unknown"
  let title1 :=
    match s.sessionFile with
    | some f =>
      if f = "" then label
      else
        match titleFromLog f with
        | some t => if t = "" then label else t
        | none => label
    | none => label
  if title1 = label then fallbackTitle s label else title1

/-- The for-loop of getTasks over the sorted session list.  Reaching a record
whose key is agent:main:main executes a bare return, which yields undefined
for the whole function call (modelled as none); records already pushed are
discarded. -/
def getTasksGo (now : Int) (titleFromLog : String → Option String) :
    List Session → Option (List SessTask)
  | [] => some []
  | s :: rest =>
    if sessSkipped now s then getTasksGo now titleFromLog rest
    else if s.key = some "agent:main:main" then none
    else
      match getTasksGo now titleFromLog rest with
      | none => none
      | some ts =>
        some ({ id := s.sessionId
                title := sessTitle titleFromLog s
                status := if sessDone now s then "done" else "running"
                updatedAt := s.updatedAt } :: ts)

/-- The comparator sessions.sort((a, b) => b.updatedAt - a.updatedAt) as a
boolean le (a NaN comparator result is treated as 0, keeping order). -/
def sessDescLe (a b : Session) : Bool :=
  match a.updatedAt, b.updatedAt with
  | some x, some y => y ≤ x
  | _, _ => true

/-- Model of getTasks on an already-parsed record list: sorts descending by
updatedAt, walks the loop, then appends the simulated cron entry.  The result
is none exactly when the loop executed the bare return. -/
def getTasks (now : Int) (titleFromLog : String → Option String)
    (sessions : List Session) : Option (List SessTask) :=
  match getTasksGo now titleFromLog (isortBy sessDescLe sessions) with
  | none => none
  | some ts =>
    some (ts ++ [{ id := "cron-daily", title := "每日 22:00 優化回顧",
                   status := "scheduled", updatedAt := some now }])

/-- Model of the merge in updateStatus: const allTasks = [...inboxTasks,
...tasks].  Spreading the undefined returned by getTasks throws a TypeError,
modelled as none. -/
def mergeTasks (inbox : List TaskEntry) (sess : Option (List SessTask)) :
    Option (List TaskEntry × List SessTask) :=
  match sess with
  | none => none
  | some ts => some (inbox, ts)

/-! ### Lemmas about the stable sort -/

theorem mem_insBy {α : Type} (le : α → α → Bool) (a x : α) :
    ∀ l : List α, (x ∈ insBy le a l ↔ x = a ∨ x ∈ l)
  | [] => by simp [insBy]
  | b :: t => by
    simp only [insBy]
    split
    · simp
    · simp only [List.mem_cons, mem_insBy le a x t]
      tauto

theorem mem_isortBy {α : Type} (le : α → α → Bool) (x : α) :
    ∀ l : List α, (x ∈ isortBy le l ↔ x ∈ l)
  | [] => Iff.rfl
  | a :: t => by
    simp [isortBy, mem_insBy, mem_isortBy le x t]

/-- Ordering relation on display records induced by the tasks.sort comparator. -/
def updLE (a b : TaskEntry) : Prop := a.updatedAt ≤ b.updatedAt

theorem pairwise_insU (a : TaskEntry) :
    ∀ l : List TaskEntry, l.Pairwise updLE → (insBy leU a l).Pairwise updLE
  | [], _ => by
    simp only [insBy]
    exact List.pairwise_cons.2 ⟨by simp, List.Pairwise.nil⟩
  | b :: t, h => by
    rcases List.pairwise_cons.1 h with ⟨hb, ht⟩
    simp only [insBy]
    split
    next hle =>
      have hab : a.updatedAt ≤ b.updatedAt := of_decide_eq_true hle
      refine List.pairwise_cons.2 ⟨?_, h⟩
      intro x hx
      rcases List.mem_cons.1 hx with rfl | hxt
      · exact hab
      · exact le_trans hab (hb x hxt)
    next hle =>
      have hba : ¬ (a.updatedAt ≤ b.updatedAt) := fun hc => hle (decide_eq_true hc)
      refine List.pairwise_cons.2 ⟨?_, pairwise_insU a t ht⟩
      intro x hx
      rcases (mem_insBy leU a x t).1 hx with rfl | hxt
      · show b.updatedAt ≤ x.updatedAt
        omega
      · exact hb x hxt

theorem pairwise_isortBy_leU :
    ∀ l : List TaskEntry, (isortBy leU l).Pairwise updLE
  | [] => List.Pairwise.nil
  | a :: t => pairwise_insU a (isortBy leU t) (pairwise_isortBy_leU t)

/-! ### Structure of one router tick -/

/-- Content of a file record, defaulting to the empty string (used only under
the hypothesis that every read succeeds). -/
def contOf (f : InFile) : String := (f.content).getD ""

theorem processList_eq (agents : List AgentView) (now : Nat) :
    ∀ l : List InFile, (∀ f ∈ l, (f.content).isSome = true) →
      processList agents now l =
        ⟨(mdFiles l).map (fun f => entryOf₀ agents now f.name f.mtimeMs (contOf f)),
         (mdFiles l).flatMap (fun f => effsOf₀ agents f.name (contOf f)),
         (mdFiles l).flatMap (fun f => dispOf₀ agents f.name (contOf f)),
         false⟩
  | [], _ => by simp [processList, mdFiles]
  | f :: rest, h => by
    have hr := processList_eq agents now rest (fun g hg => h g (List.mem_cons_of_mem f hg))
    have hf := h f (List.mem_cons_self f rest)
    rcases Option.isSome_iff_exists.1 hf with ⟨c, hc⟩
    by_cases hmd : jsEndsWith f.name ".md" = true
    · simp [processList, hmd, hc, mdFiles, List.filter_cons, hr, contOf]
    · simp [processList, hmd, mdFiles, List.filter_cons, hr]

/-- Under the hypothesis that every read succeeds, the scan is not aborted
and the returned display list is the sorted per-file record list. -/
theorem processInbox_eq (agents : List AgentView) (now : Nat) (files : List InFile)
    (h : ∀ f ∈ files, (f.content).isSome = true) :
    processInbox agents now files =
      ⟨isortBy leU ((mdFiles files).map
          (fun f => entryOf₀ agents now f.name f.mtimeMs (contOf f))),
       (mdFiles files).flatMap (fun f => effsOf₀ agents f.name (contOf f)),
       (mdFiles files).flatMap (fun f => dispOf₀ agents f.name (contOf f)),
       false⟩ := by
  simp [processInbox, processList_eq agents now files h]

/-- Directory entries have pairwise distinct names, so equal names identify
equal entries. -/
theorem name_inj (files : List InFile) (hnd : (files.map InFile.name).Nodup)
    {f g : InFile} (hf : f ∈ files) (hg : g ∈ files) (he : f.name = g.name) :
    f = g := by
  induction files with
  | nil => cases hf
  | cons x t ih =>
    rw [List.map_cons, List.nodup_cons] at hnd
    rcases List.mem_cons.1 hf with rfl | hft
    · rcases List.mem_cons.1 hg with rfl | hgt
      · rfl
      · refine absurd ?_ hnd.1
        rw [he]
        exact List.mem_map_of_mem InFile.name hgt
    · rcases List.mem_cons.1 hg with rfl | hgt
      · refine absurd ?_ hnd.1
        rw [← he]
        exact List.mem_map_of_mem InFile.name hft
      · exact ih hnd.2 hft hgt

/-- Every file that is pending and whose target is free in the supplied
snapshot contributes its status rewrite, its spawn request and its dispatch
record to the tick. -/
theorem dispatch_mem (agents : List AgentView) (now : Nat) (files : List InFile)
    (h : ∀ f ∈ files, (f.content).isSome = true) {f : InFile} (hf : f ∈ files)
    (hmd : jsEndsWith f.name ".md" = true) {c : String} (hc : f.content = some c)
    (hw : willDispatch agents c = true) :
    Effect.write f.name (jsReplaceStatusPending c) ∈ (processInbox agents now files).effs ∧
    Effect.spawn f.name (routeOf c).1 (routeOf c).2 ∈ (processInbox agents now files).effs ∧
    (f.name, c) ∈ (processInbox agents now files).disps := by
  have hfm : f ∈ mdFiles files := List.mem_filter.2 ⟨hf, hmd⟩
  have hco : contOf f = c := by simp [contOf, hc]
  rw [processInbox_eq agents now files h]
  refine ⟨List.mem_flatMap.2 ⟨f, hfm, ?_⟩, List.mem_flatMap.2 ⟨f, hfm, ?_⟩,
    List.mem_flatMap.2 ⟨f, hfm, ?_⟩⟩ <;>
    simp [hco, effsOf₀, dispOf₀, hw]

/-! ### Claim C1 -/

/-- C1: the busy-check of every pending task in a tick is evaluated against
the one worker snapshot supplied to processInbox and is never refreshed
mid-scan; consequently, when two pending .md tasks both route to a target
label with no active worker in the supplied snapshot, both spawn requests are
issued in the same tick. -/
theorem c1_single_snapshot_both_dispatched
    (agents : List AgentView) (now : Nat) (files : List InFile)
    (f₁ f₂ : InFile) (c₁ c₂ : String) (L : String)
    (hall : ∀ f ∈ files, (f.content).isSome = true)
    (hf₁ : f₁ ∈ files) (hf₂ : f₂ ∈ files)
    (hmd₁ : jsEndsWith f₁.name ".md" = true) (hmd₂ : jsEndsWith f₂.name ".md" = true)
    (hc₁ : f₁.content = some c₁) (hc₂ : f₂.content = some c₂)
    (hp₁ : statusOf c₁ = "pending") (hp₂ : statusOf c₂ = "pending")
    (hL₁ : (routeOf c₁).1 = L) (hL₂ : (routeOf c₂).1 = L)
    (hfree : isBusy agents L = false) :
    Effect.spawn f₁.name L (routeOf c₁).2 ∈ (processInbox agents now files).effs ∧
    Effect.spawn f₂.name L (routeOf c₂).2 ∈ (processInbox agents now files).effs := by
  have hw₁ : willDispatch agents c₁ = true := by
    simp [willDispatch, hp₁, hL₁, hfree]
  have hw₂ : willDispatch agents c₂ = true := by
    simp [willDispatch, hp₂, hL₂, hfree]
  constructor
  · have := (dispatch_mem agents now files hall hf₁ hmd₁ hc₁ hw₁).2.1
    rwa [hL₁] at this
  · have := (dispatch_mem agents now files hall hf₂ hmd₂ hc₂ hw₂).2.1
    rwa [hL₂] at this

/-- Worker snapshot entry used by the concrete C1 scenario: a tech_team
session that is idle. -/
def agentIdleTech : AgentView :=
  ⟨"k1", "tech_team", "m", "idle", 600000, 0, "s1", some 0, none⟩

/-- Concrete pending coding task a.md. -/
def fileA : InFile := ⟨"a.md", some "status: pending\ntype: coding", 100⟩

/-- Concrete pending coding task b.md. -/
def fileB : InFile := ⟨"b.md", some "status: pending\ntype: coding", 200⟩

/-- Witness for C1: in the scenario of the spec (a.md and b.md pending coding
tasks, tech_team idle in the snapshot) both spawns happen in one tick. -/
theorem c1_single_snapshot_both_dispatched_witness :
    Effect.spawn "a.md" "tech_team" "google-antigravity/claude-opus-4-5-thinking"
      ∈ (processInbox [agentIdleTech] 1000 [fileA, fileB]).effs ∧
    Effect.spawn "b.md" "tech_team" "google-antigravity/claude-opus-4-5-thinking"
      ∈ (processInbox [agentIdleTech] 1000 [fileA, fileB]).effs :=
  c1_single_snapshot_both_dispatched [agentIdleTech] 1000 [fileA, fileB]
    fileA fileB "status: pending\ntype: coding" "status: pending\ntype: coding"
    "tech_team" (by decide) (by decide) (by decide) (by decide) (by decide)
    (by decide) (by decide) (by decide) (by decide) (by decide) (by decide)
    (by decide)

/-! ### Claim C2 -/

theorem lastContent_append (t₁ t₂ : List Effect) (n : String) (i : Option String) :
    lastContent (t₁ ++ t₂) n i = lastContent t₂ n (lastContent t₁ n i) := by
  simp [lastContent, List.foldl_append]

theorem lastContent_cons_write_self (n : String) (c : String) (t : List Effect)
    (i : Option String) :
    lastContent (Effect.write n c :: t) n i = lastContent t n (some c) := by
  simp [lastContent]

theorem lastContent_all_eq (n c : String) :
    ∀ t : List Effect, (∀ c', Effect.write n c' ∈ t → c' = c) →
      lastContent t n (some c) = some c
  | [], _ => rfl
  | Effect.write m c' :: t, h => by
    have ht : ∀ c'', Effect.write n c'' ∈ t → c'' = c :=
      fun c'' hm => h c'' (List.mem_cons_of_mem _ hm)
    by_cases hm : m = n
    · have hc' : c' = c := h c' (by rw [hm]; exact List.mem_cons_self _ _)
      simpa [lastContent, hm, hc'] using lastContent_all_eq n c t ht
    · simpa [lastContent, hm] using lastContent_all_eq n c t ht
  | Effect.spawn a b d :: t, h => by
    have ht : ∀ c'', Effect.write n c'' ∈ t → c'' = c :=
      fun c'' hm => h c'' (List.mem_cons_of_mem _ hm)
    simpa [lastContent] using lastContent_all_eq n c t ht

theorem mem_rollbackWrites {D : List (String × String)} {fails : String → Bool}
    {e : Effect} :
    e ∈ rollbackWrites D fails ↔
      ∃ d ∈ D, fails d.1 = true ∧ e = Effect.write d.1 d.2 := by
  constructor
  · intro he
    rcases List.mem_filterMap.1 he with ⟨d, hd, hde⟩
    cases hfb : fails d.1 with
    | false => rw [hfb] at hde; simp at hde
    | true =>
      rw [hfb] at hde
      simp at hde
      exact ⟨d, hd, hfb, hde.symm⟩
  · rintro ⟨d, hd, hf, rfl⟩
    exact List.mem_filterMap.2 ⟨d, hd, by simp [hf]⟩

/-- Every dispatch record of a tick comes from one dispatched .md file and
carries that file's pre-dispatch content. -/
theorem disps_shape (agents : List AgentView) (now : Nat) (files : List InFile)
    (hall : ∀ f ∈ files, (f.content).isSome = true) {d : String × String}
    (hd : d ∈ (processInbox agents now files).disps) :
    ∃ g ∈ files, jsEndsWith g.name ".md" = true ∧
      willDispatch agents (contOf g) = true ∧ d = (g.name, contOf g) := by
  rw [processInbox_eq agents now files hall] at hd
  rcases List.mem_flatMap.1 hd with ⟨g, hg, hdg⟩
  have hgf : g ∈ files := (List.mem_filter.1 hg).1
  have hgmd : jsEndsWith g.name ".md" = true := (List.mem_filter.1 hg).2
  cases hw : willDispatch agents (contOf g) with
  | false => rw [dispOf₀, hw] at hdg; simp at hdg
  | true =>
    rw [dispOf₀, hw] at hdg
    simp at hdg
    exact ⟨g, hgf, hgmd, hw, by rw [hdg]⟩

/-- C2: for every pending task that is dispatched in a tick and whose
asynchronous spawn later reports failure, the task file's content after the
tick's writes and the callbacks' rollback writes equals its exact pre-dispatch
content, byte for byte (so its status is pending again for the next tick). -/
theorem c2_rollback_restores_original
    (agents : List AgentView) (now : Nat) (files : List InFile)
    (fails : String → Bool) (f : InFile) (c : String)
    (hall : ∀ g ∈ files, (g.content).isSome = true)
    (hnd : (files.map InFile.name).Nodup)
    (hf : f ∈ files) (hmd : jsEndsWith f.name ".md" = true)
    (hc : f.content = some c) (hp : statusOf c = "pending")
    (hb : isBusy agents (routeOf c).1 = false)
    (hfail : fails f.name = true) :
    lastContent ((processInbox agents now files).effs
        ++ rollbackWrites (processInbox agents now files).disps fails)
      f.name f.content = f.content := by
  have hw : willDispatch agents c = true := by
    simp [willDispatch, hp, hb]
  have hdm : (f.name, c) ∈ (processInbox agents now files).disps :=
    (dispatch_mem agents now files hall hf hmd hc hw).2.2
  rcases List.append_of_mem hdm with ⟨D₁, D₂, hD⟩
  have hR2 : ∀ c', Effect.write f.name c' ∈ rollbackWrites D₂ fails → c' = c := by
    intro c' hc'
    rcases mem_rollbackWrites.1 hc' with ⟨d, hdD₂, _, hde⟩
    have hdD : d ∈ (processInbox agents now files).disps := by
      rw [hD]
      exact List.mem_append_right D₁ (List.mem_cons_of_mem _ hdD₂)
    rcases disps_shape agents now files hall hdD with ⟨g, hgf, _, _, rfl⟩
    injection hde with h1 h2
    have hfg : f = g := name_inj files hnd hf hgf h1
    rw [h2, ← hfg]
    simp [contOf, hc]
  rw [hc, lastContent_append, hD]
  simp only [rollbackWrites, List.filterMap_append, List.filterMap_cons, hfail,
    if_true]
  rw [lastContent_append, lastContent_cons_write_self]
  exact lastContent_all_eq f.name c _ hR2

/-- Concrete pending task for the C2 witness. -/
def filePendingTask : InFile := ⟨"task.md", some "status: pending\nDo the thing", 100⟩

/-- Witness for C2: the concrete pending task is dispatched against an empty
snapshot, its spawn fails, and the rollback leaves its exact original bytes. -/
theorem c2_rollback_restores_original_witness :
    lastContent ((processInbox [] 1000 [filePendingTask]).effs
        ++ rollbackWrites (processInbox [] 1000 [filePendingTask]).disps (fun _ => true))
      "task.md" filePendingTask.content = filePendingTask.content :=
  c2_rollback_restores_original [] 1000 [filePendingTask] (fun _ => true) filePendingTask
    "status: pending\nDo the thing" (by decide) (by decide) (by decide)
    (by decide) (by decide) (by decide) (by decide) (by decide)

/-! ### Claim C4 -/

/-- Tests whether an effect is a write to the given file. -/
def isWriteTo (name : String) : Effect → Bool
  | Effect.write n _ => n = name
  | Effect.spawn _ _ _ => false

/-- C4: for every pending task whose target label is busy in the supplied
snapshot (some worker has that label with status active), the tick performs
no write to the task file, and the task appears in the output list with
status pending and updatedAt equal to the file's modification time. -/
theorem c4_busy_leaves_file_untouched
    (agents : List AgentView) (now : Nat) (files : List InFile)
    (f : InFile) (c : String)
    (hall : ∀ g ∈ files, (g.content).isSome = true)
    (hnd : (files.map InFile.name).Nodup)
    (hf : f ∈ files) (hmd : jsEndsWith f.name ".md" = true)
    (hc : f.content = some c) (hp : statusOf c = "pending")
    (hbusy : isBusy agents (routeOf c).1 = true) :
    (processInbox agents now files).effs.all (fun e => !(isWriteTo f.name e)) = true ∧
    ({ id := "inbox-" ++ f.name, title := titleOf f.name c, status := "pending",
       updatedAt := f.mtimeMs } : TaskEntry) ∈ (processInbox agents now files).tasks := by
  have hw : willDispatch agents c = false := by
    simp [willDispatch, hbusy]
  have hco : contOf f = c := by simp [contOf, hc]
  constructor
  · rw [processInbox_eq agents now files hall]
    refine List.all_eq_true.2 ?_
    intro e he
    rcases List.mem_flatMap.1 he with ⟨g, hg, heg⟩
    have hgf : g ∈ files := (List.mem_filter.1 hg).1
    cases hgw : willDispatch agents (contOf g) with
    | false => rw [effsOf₀, hgw] at heg; simp at heg
    | true =>
      rw [effsOf₀, hgw] at heg
      rcases List.mem_cons.1 heg with rfl | heg2
      · simp only [isWriteTo, Bool.not_eq_true']
        refine decide_eq_false ?_
        intro hgn
        have : g = f := name_inj files hnd hgf hf hgn
        rw [this, hco] at hgw
        rw [hgw] at hw
        cases hw
      · rcases List.mem_cons.1 heg2 with rfl | heg3
        · simp [isWriteTo]
        · simp at heg3
  · rw [processInbox_eq agents now files hall]
    refine (mem_isortBy leU _ _).2 ?_
    have hfm : f ∈ mdFiles files := List.mem_filter.2 ⟨hf, hmd⟩
    have : entryOf₀ agents now f.name f.mtimeMs (contOf f) =
        { id := "inbox-" ++ f.name, title := titleOf f.name c, status := "pending",
          updatedAt := f.mtimeMs } := by
      rw [hco, entryOf₀, hw]
      simp [hp]
    rw [← this]
    exact List.mem_map_of_mem _ hfm

/-- Busy tech_team worker for the C4 witness. -/
def agentBusyTech : AgentView :=
  ⟨"k1", "tech_team", "m", "active", 1000, 0, "s1", some 0, none⟩

/-- Witness for C4: with tech_team active, the pending coding task a.md is
left untouched and shown as pending with its mtime. -/
theorem c4_busy_leaves_file_untouched_witness :
    (processInbox [agentBusyTech] 1000 [fileA]).effs.all
      (fun e => !(isWriteTo "a.md" e)) = true ∧
    ({ id := "inbox-a.md", title := titleOf "a.md" "status: pending\ntype: coding",
       status := "pending", updatedAt := 100 } : TaskEntry)
      ∈ (processInbox [agentBusyTech] 1000 [fileA]).tasks :=
  c4_busy_leaves_file_untouched [agentBusyTech] 1000 [fileA] fileA
    "status: pending\ntype: coding" (by decide) (by decide) (by decide)
    (by decide) (by decide) (by decide) (by decide)

/-! ### Claim C3 -/

theorem dropLit_eq : ∀ {k l r : List Char}, dropLit k l = some r → l = k ++ r
  | [], l, r, h => by simpa [dropLit] using (Option.some_inj.1 h).symm ▸ rfl
  | k :: ks, [], r, h => by simp [dropLit] at h
  | k :: ks, c :: cs, r, h => by
    by_cases hkc : k = c
    · rw [dropLit, if_pos hkc] at h
      rw [List.cons_append, ← hkc, dropLit_eq h]
    · rw [dropLit, if_neg hkc] at h
      cases h

theorem dropLit_self : ∀ (k r : List Char), dropLit k (k ++ r) = some r
  | [], r => rfl
  | k :: ks, r => by rw [List.cons_append, dropLit, if_pos rfl, dropLit_self ks r]

theorem dropLit_of_takeWhile {p : Char → Bool} {l w : List Char}
    (h : l.takeWhile p = w) : dropLit w l = some (l.dropWhile p) := by
  conv in dropLit w l => rw [← List.takeWhile_append_dropWhile (p := p) (l := l)]
  rw [h]
  exact dropLit_self w (l.dropWhile p)

/-- A match of the dispatch-rewrite pattern: the status: key, a run of
whitespace, an optional quote, the literal pending, an optional quote. -/
def statusPendingSpan (mid : List Char) : Prop :=
  ∃ sp q1 q2, mid = ("status:".toList) ++ sp ++ q1 ++ ("pending".toList) ++ q2 ∧
    (∀ ch ∈ sp, isJsSpace ch = true) ∧
    (q1 = [] ∨ ∃ ch, isQuote ch = true ∧ q1 = [ch]) ∧
    (q2 = [] ∨ ∃ ch, isQuote ch = true ∧ q2 = [ch])

theorem pendingTailLen_spec {r : List Char} {m : Nat}
    (h : pendingTailLen r = some m) :
    ∃ sp q1 q2 post, r = sp ++ q1 ++ ("pending".toList) ++ q2 ++ post ∧
      (sp ++ q1 ++ ("pending".toList) ++ q2).length = m ∧
      (∀ ch ∈ sp, isJsSpace ch = true) ∧
      (q1 = [] ∨ ∃ ch, isQuote ch = true ∧ q1 = [ch]) ∧
      (q2 = [] ∨ ∃ ch, isQuote ch = true ∧ q2 = [ch]) := by
  have hsp : ∀ ch ∈ r.takeWhile isJsSpace, isJsSpace ch = true :=
    fun ch hch => List.mem_takeWhile_imp hch
  have hr : r = r.takeWhile isJsSpace ++ r.dropWhile isJsSpace :=
    (List.takeWhile_append_dropWhile isJsSpace r).symm
  rw [pendingTailLen] at h
  cases hdw : r.dropWhile isJsSpace with
  | nil =>
    simp only [hdw, pendingAfterSpaces] at h
    exact Option.noConfusion h
  | cons q qs =>
    rw [hdw] at hr
    simp only [hdw, pendingAfterSpaces] at h
    by_cases hq : isQuote q = true
    · rw [if_pos hq] at h
      cases hdl : dropLit ("pending".toList) qs with
      | none =>
        simp only [hdl] at h
        exact Option.noConfusion h
      | some r3 =>
        simp only [hdl] at h
        have hqs : qs = ("pending".toList) ++ r3 := dropLit_eq hdl
        cases r3 with
        | nil =>
          refine ⟨r.takeWhile isJsSpace, [q], [], [], ?_, ?_, hsp, ?_, ?_⟩
          · conv_lhs => rw [hr, hqs]
            simp [List.append_assoc]
          · simp [closeQ] at h ⊢
            omega
          · exact Or.inr ⟨q, hq, rfl⟩
          · exact Or.inl rfl
        | cons d r4 =>
          by_cases hd : isQuote d = true
          · refine ⟨r.takeWhile isJsSpace, [q], [d], r4, ?_, ?_, hsp, ?_, ?_⟩
            · conv_lhs => rw [hr, hqs]
              simp [List.append_assoc]
            · simp [closeQ, hd] at h ⊢
              omega
            · exact Or.inr ⟨q, hq, rfl⟩
            · exact Or.inr ⟨d, hd, rfl⟩
          · refine ⟨r.takeWhile isJsSpace, [q], [], d :: r4, ?_, ?_, hsp, ?_, ?_⟩
            · conv_lhs => rw [hr, hqs]
              simp [List.append_assoc]
            · simp [closeQ, hd] at h ⊢
              omega
            · exact Or.inr ⟨q, hq, rfl⟩
            · exact Or.inl rfl
    · rw [if_neg hq] at h
      cases hdl : dropLit ("pending".toList) (q :: qs) with
      | none =>
        simp only [hdl] at h
        exact Option.noConfusion h
      | some r3 =>
        simp only [hdl] at h
        have hqs : q :: qs = ("pending".toList) ++ r3 := dropLit_eq hdl
        cases r3 with
        | nil =>
          refine ⟨r.takeWhile isJsSpace, [], [], [], ?_, ?_, hsp, Or.inl rfl, Or.inl rfl⟩
          · conv_lhs => rw [hr, hqs]
            simp [List.append_assoc]
          · simp [closeQ] at h ⊢
            omega
        | cons d r4 =>
          by_cases hd : isQuote d = true
          · refine ⟨r.takeWhile isJsSpace, [], [d], r4, ?_, ?_, hsp, Or.inl rfl, ?_⟩
            · conv_lhs => rw [hr, hqs]
              simp [List.append_assoc]
            · simp [closeQ, hd] at h ⊢
              omega
            · exact Or.inr ⟨d, hd, rfl⟩
          · refine ⟨r.takeWhile isJsSpace, [], [], d :: r4, ?_, ?_, hsp, Or.inl rfl, Or.inl rfl⟩
            · conv_lhs => rw [hr, hqs]
              simp [List.append_assoc]
            · simp [closeQ, hd] at h ⊢
              omega

theorem matchPendingHere_spec {l : List Char} {n : Nat}
    (h : matchPendingHere l = some n) :
    ∃ mid post, l = mid ++ post ∧ mid.length = n ∧ statusPendingSpan mid := by
  rw [matchPendingHere] at h
  cases hdl : dropLit ("status:".toList) l with
  | none =>
    simp only [hdl] at h
    exact Option.noConfusion h
  | some r =>
    simp only [hdl] at h
    cases hpt : pendingTailLen r with
    | none =>
      simp only [hpt, Option.map_none'] at h
      exact Option.noConfusion h
    | some m =>
      rw [hpt] at h
      simp at h
      rcases pendingTailLen_spec hpt with ⟨sp, q1, q2, post, hre, hm, hsps, hq1, hq2⟩
      refine ⟨("status:".toList) ++ sp ++ q1 ++ ("pending".toList) ++ q2, post, ?_, ?_, ?_⟩
      · rw [dropLit_eq hdl, hre]; simp
      · simp at hm ⊢
        omega
      · exact ⟨sp, q1, q2, by simp, hsps, hq1, hq2⟩

theorem findPending_spec : ∀ {l : List Char} {i n : Nat},
    findPending l = some (i, n) →
    ∃ pre mid post, l = pre ++ mid ++ post ∧ pre.length = i ∧ mid.length = n ∧
      statusPendingSpan mid
  | [], i, n, h => by cases h
  | c :: cs, i, n, h => by
    rw [findPending] at h
    cases hmp : matchPendingHere (c :: cs) with
    | some n0 =>
      simp only [hmp] at h
      have h' := Option.some_inj.1 h
      have hi : 0 = i := congrArg Prod.fst h'
      have hn : n0 = n := congrArg Prod.snd h'
      rcases matchPendingHere_spec hmp with ⟨mid, post, hl, hlen, hspan⟩
      exact ⟨[], mid, post, by simpa using hl, by simp [← hi], by rw [hlen, hn], hspan⟩
    | none =>
      simp only [hmp] at h
      cases hfp : findPending cs with
      | none =>
        simp only [hfp, Option.map_none'] at h
        exact Option.noConfusion h
      | some p =>
        rcases p with ⟨i', n'⟩
        simp only [hfp, Option.map_some'] at h
        have h' := Option.some_inj.1 h
        have hi : i' + 1 = i := congrArg Prod.fst h'
        have hn : n' = n := congrArg Prod.snd h'
        rcases findPending_spec hfp with ⟨pre, mid, post, hl, hlen, hlen2, hspan⟩
        refine ⟨c :: pre, mid, post, by rw [List.cons_append, List.cons_append, hl],
          ?_, ?_, hspan⟩
        · simp [hlen]
          omega
        · omega

theorem mk_pending_toList {w : List Char} (h : String.mk w = "pending") :
    w = ("pending".toList) := by
  have := congrArg String.toList h
  simpa using this

theorem statusOf_pending_findKeyVal {c : String} (h : statusOf c = "pending") :
    findKeyVal ("status:".toList) c.toList = some ("pending".toList) := by
  rw [statusOf] at h
  cases hk : findKeyVal ("status:".toList) c.toList with
  | none => rw [hk] at h; exact absurd h (by decide)
  | some w =>
    rw [hk] at h
    rw [mk_pending_toList h]

theorem matchValHere_pending {r : List Char}
    (h : matchValHere r = some ("pending".toList)) :
    (pendingTailLen r).isSome = true := by
  rw [matchValHere] at h
  rw [pendingTailLen]
  cases hdw : r.dropWhile isJsSpace with
  | nil =>
    simp only [hdw, valAfterSpaces] at h
    exact Option.noConfusion h
  | cons q qs =>
    simp only [hdw, valAfterSpaces] at h
    simp only [hdw, pendingAfterSpaces]
    by_cases hq : isQuote q = true
    · rw [if_pos hq] at h ⊢
      have hw : qs.takeWhile isWordChar = ("pending".toList) := by
        by_cases he : (qs.takeWhile isWordChar).isEmpty = true
        · rw [if_pos he] at h; cases h
        · rw [if_neg he] at h; exact Option.some_inj.1 h
      simp only [dropLit_of_takeWhile hw]
      simp
    · rw [if_neg hq] at h ⊢
      have hw : (q :: qs).takeWhile isWordChar = ("pending".toList) := by
        by_cases he : ((q :: qs).takeWhile isWordChar).isEmpty = true
        · rw [if_pos he] at h; cases h
        · rw [if_neg he] at h; exact Option.some_inj.1 h
      simp only [dropLit_of_takeWhile hw]
      simp

theorem findKeyVal_pending_findPending : ∀ {l : List Char},
    findKeyVal ("status:".toList) l = some ("pending".toList) →
    (findPending l).isSome = true
  | [], h => by cases h
  | c :: cs, h => by
    rw [findKeyVal] at h
    rw [findPending, matchPendingHere]
    cases hdl : dropLit ("status:".toList) (c :: cs) with
    | some rest =>
      simp only [hdl] at h ⊢
      cases hmv : matchValHere rest with
      | some w =>
        simp only [hmv] at h
        have hps := matchValHere_pending (hmv.trans h)
        rcases Option.isSome_iff_exists.1 hps with ⟨m, hm⟩
        simp [hm]
      | none =>
        simp only [hmv] at h
        have := findKeyVal_pending_findPending h
        cases hpt : pendingTailLen rest with
        | some m => simp [hpt]
        | none =>
          simp only [hpt, Option.map_none']
          rcases Option.isSome_iff_exists.1 this with ⟨p, hp⟩
          simp [hp]
    | none =>
      simp only [hdl] at h ⊢
      have := findKeyVal_pending_findPending h
      rcases Option.isSome_iff_exists.1 this with ⟨p, hp⟩
      simp [hp]

/-- The effect trace of a tick around one dispatched file: the status
rewrite, immediately followed by the spawn request. -/
theorem effs_decomp (agents : List AgentView) (now : Nat) (files : List InFile)
    (f : InFile) (c : String)
    (hall : ∀ g ∈ files, (g.content).isSome = true)
    (hf : f ∈ files) (hmd : jsEndsWith f.name ".md" = true)
    (hc : f.content = some c) (hw : willDispatch agents c = true) :
    ∃ A B, (processInbox agents now files).effs =
      A ++ Effect.write f.name (jsReplaceStatusPending c)
        :: Effect.spawn f.name (routeOf c).1 (routeOf c).2 :: B := by
  rw [processInbox_eq agents now files hall]
  have hfm : f ∈ mdFiles files := List.mem_filter.2 ⟨hf, hmd⟩
  have hco : contOf f = c := by simp [contOf, hc]
  rcases List.append_of_mem hfm with ⟨u, v, huv⟩
  refine ⟨u.flatMap (fun g => effsOf₀ agents g.name (contOf g)),
    v.flatMap (fun g => effsOf₀ agents g.name (contOf g)), ?_⟩
  rw [huv, List.flatMap_append, List.flatMap_cons, hco, effsOf₀, if_pos hw]
  simp

/-- C3 counterexample: for the concrete pending file whose status field is
written with two spaces and no quotes, the dispatch write emits the
canonical replacement, not a value-only rewrite: the surrounding whitespace
byte is dropped and quote bytes are introduced, so bytes other than the
value change. -/
theorem c3_counterexample_write_not_value_only :
    (processInbox [] 9 [⟨"t.md", some "status:  pending\nX", 5⟩]).effs =
      [Effect.write "t.md" "status: \"dispatched\"\nX",
       Effect.spawn "t.md" "handyman" "google-antigravity/gemini-3-pro-high"] ∧
    ("status: \"dispatched\"\nX" : String) ≠ "status:  dispatched\nX" := by
  constructor
  · decide
  · decide

/-- C3 (amended): for every pending task whose target label is not busy, the
dispatch write replaces the leftmost match of status:\s*["']?pending["']?
(the key, the whitespace run, the optional quotes and the value) by the
literal status: "dispatched", preserving every byte of the file outside that
matched span, and the write is immediately followed by the spawn request in
the tick's effect trace. -/
theorem c3_amended_dispatch_write
    (agents : List AgentView) (now : Nat) (files : List InFile)
    (f : InFile) (c : String)
    (hall : ∀ g ∈ files, (g.content).isSome = true)
    (hf : f ∈ files) (hmd : jsEndsWith f.name ".md" = true)
    (hc : f.content = some c) (hp : statusOf c = "pending")
    (hb : isBusy agents (routeOf c).1 = false) :
    (∃ A B, (processInbox agents now files).effs =
      A ++ Effect.write f.name (jsReplaceStatusPending c)
        :: Effect.spawn f.name (routeOf c).1 (routeOf c).2 :: B) ∧
    (∃ pre mid post, c.toList = pre ++ mid ++ post ∧ statusPendingSpan mid ∧
      (jsReplaceStatusPending c).toList =
        pre ++ ("status: \"dispatched\"").toList ++ post) := by
  have hw : willDispatch agents c = true := by
    simp [willDispatch, hp, hb]
  refine ⟨effs_decomp agents now files f c hall hf hmd hc hw, ?_⟩
  have hkv := statusOf_pending_findKeyVal hp
  have hfp := findKeyVal_pending_findPending hkv
  rcases Option.isSome_iff_exists.1 hfp with ⟨p, hip⟩
  rcases p with ⟨i, n⟩
  rcases findPending_spec hip with ⟨pre, mid, post, hdecomp, hleni, hlenn, hspan⟩
  refine ⟨pre, mid, post, hdecomp, hspan, ?_⟩
  rw [jsReplaceStatusPending]
  simp only [hip]
  have htake : (pre ++ mid ++ post).take i = pre := by
    rw [List.append_assoc]
    exact List.take_left' hleni
  have hdrop : (pre ++ mid ++ post).drop (i + n) = post :=
    List.drop_left' (by simp [hleni, hlenn])
  show (c.toList.take i ++ ("status: \"dispatched\"").toList
      ++ c.toList.drop (i + n)) = pre ++ ("status: \"dispatched\"").toList ++ post
  rw [hdecomp, htake, hdrop]

/-- Concrete pending file for the C3 amended witness. -/
def filePlain : InFile := ⟨"t.md", some "status: pending\nX", 5⟩

/-- Witness for the amended C3: the concrete pending file is dispatched and
its rewrite preserves everything outside the matched status field. -/
theorem c3_amended_dispatch_write_witness :
    (∃ A B, (processInbox [] 9 [filePlain]).effs =
      A ++ Effect.write "t.md" (jsReplaceStatusPending "status: pending\nX")
        :: Effect.spawn "t.md" (routeOf "status: pending\nX").1
             (routeOf "status: pending\nX").2 :: B) ∧
    (∃ pre mid post, ("status: pending\nX").toList = pre ++ mid ++ post ∧
      statusPendingSpan mid ∧
      (jsReplaceStatusPending "status: pending\nX").toList =
        pre ++ ("status: \"dispatched\"").toList ++ post) :=
  c3_amended_dispatch_write [] 9 [filePlain] filePlain "status: pending\nX"
    (by decide) (by decide) (by decide) (by decide) (by decide) (by decide)

/-! ### Claims C5 and C6 -/

/-- Left cancellation for string append. -/
theorem string_append_left_cancel {a b c : String} (h : a ++ b = a ++ c) : b = c := by
  apply String.ext
  have := congrArg String.data h
  rw [String.data_append, String.data_append] at this
  exact (List.append_right_inj a.data).1 this

/-- Every display record of a tick comes from one readable .md file; a
dispatched file yields the fresh record (status dispatched, updatedAt = tick
clock) and registers its dispatch, every other file yields the parsed record
with the file's mtime and registers no dispatch. -/
theorem tasks_shape (agents : List AgentView) (now : Nat) (files : List InFile)
    (hall : ∀ g ∈ files, (g.content).isSome = true)
    (hnd : (files.map InFile.name).Nodup) :
    ∀ t ∈ (processInbox agents now files).tasks, ∃ f ∈ files, ∃ c,
      f.content = some c ∧ t = entryOf₀ agents now f.name f.mtimeMs c ∧
      t.id = "inbox-" ++ f.name ∧
      ((willDispatch agents c = true ∧
        (f.name, c) ∈ (processInbox agents now files).disps ∧
        t.status = "dispatched" ∧ t.updatedAt = now) ∨
       (willDispatch agents c = false ∧
        (∀ o, (f.name, o) ∉ (processInbox agents now files).disps) ∧
        t.status = statusOf c ∧ t.updatedAt = f.mtimeMs)) := by
  intro t ht
  rw [processInbox_eq agents now files hall] at ht
  have ht' := (mem_isortBy leU t _).1 ht
  rcases List.mem_map.1 ht' with ⟨f, hfm, hend⟩
  have hf : f ∈ files := (List.mem_filter.1 hfm).1
  have hmd : jsEndsWith f.name ".md" = true := (List.mem_filter.1 hfm).2
  rcases Option.isSome_iff_exists.1 (hall f hf) with ⟨c, hc⟩
  have hco : contOf f = c := by simp [contOf, hc]
  rw [hco] at hend
  refine ⟨f, hf, c, hc, hend.symm, ?_, ?_⟩
  · rw [← hend, entryOf₀]
    cases hw : willDispatch agents c <;> simp
  · cases hw : willDispatch agents c with
    | true =>
      refine Or.inl ⟨rfl, (dispatch_mem agents now files hall hf hmd hc hw).2.2, ?_, ?_⟩ <;>
        rw [← hend, entryOf₀, if_pos hw]
    | false =>
      refine Or.inr ⟨rfl, ?_, ?_, ?_⟩
      · intro o ho
        rcases disps_shape agents now files hall ho with ⟨g, hgf, _, hgw, hge⟩
        have hgn : g.name = f.name := (congrArg Prod.fst hge).symm
        rw [name_inj files hnd hgf hf hgn, hco] at hgw
        rw [hgw] at hw
        cases hw
      · rw [← hend, entryOf₀, if_neg (by simp [hw])]
      · rw [← hend, entryOf₀, if_neg (by simp [hw])]

/-- C6: the tick's display list is sorted ascending by updatedAt; every
freshly-dispatched entry carries updatedAt equal to the tick clock at
dispatch, every non-dispatched entry carries the file's modification time. -/
theorem c6_sorted_by_updatedAt (agents : List AgentView) (now : Nat)
    (files : List InFile)
    (hall : ∀ g ∈ files, (g.content).isSome = true)
    (hnd : (files.map InFile.name).Nodup) :
    (processInbox agents now files).tasks.Pairwise updLE ∧
    ∀ t ∈ (processInbox agents now files).tasks, ∃ f ∈ files, ∃ c,
      f.content = some c ∧ t.id = "inbox-" ++ f.name ∧
      (((f.name, c) ∈ (processInbox agents now files).disps ∧
        t.status = "dispatched" ∧ t.updatedAt = now) ∨
       ((∀ o, (f.name, o) ∉ (processInbox agents now files).disps) ∧
        t.updatedAt = f.mtimeMs)) := by
  constructor
  · rw [processInbox_eq agents now files hall]
    exact pairwise_isortBy_leU _
  · intro t ht
    rcases tasks_shape agents now files hall hnd t ht with
      ⟨f, hf, c, hc, _, hid, hcase⟩
    refine ⟨f, hf, c, hc, hid, ?_⟩
    rcases hcase with ⟨_, hd, hs, hu⟩ | ⟨_, hn, _, hu⟩
    · exact Or.inl ⟨hd, hs, hu⟩
    · exact Or.inr ⟨hn, hu⟩

/-- Files used by the C5 counterexample and the C5 and C6 witnesses: one
non-pending task with an old mtime and one dispatchable pending task. -/
def fileDone : InFile := ⟨"done.md", some "status: done", 500⟩

/-- Pending task used alongside fileDone. -/
def fileTask : InFile := ⟨"task.md", some "status: pending", 600⟩

/-- Witness for C6 at the concrete two-file inbox. -/
theorem c6_sorted_by_updatedAt_witness :
    (processInbox [] 1000 [fileDone, fileTask]).tasks.Pairwise updLE ∧
    ∀ t ∈ (processInbox [] 1000 [fileDone, fileTask]).tasks,
      ∃ f ∈ [fileDone, fileTask], ∃ c,
      f.content = some c ∧ t.id = "inbox-" ++ f.name ∧
      (((f.name, c) ∈ (processInbox [] 1000 [fileDone, fileTask]).disps ∧
        t.status = "dispatched" ∧ t.updatedAt = 1000) ∨
       ((∀ o, (f.name, o) ∉ (processInbox [] 1000 [fileDone, fileTask]).disps) ∧
        t.updatedAt = f.mtimeMs)) :=
  c6_sorted_by_updatedAt [] 1000 [fileDone, fileTask] (by decide) (by decide)

/-- Display ids of the files dispatched in this tick. -/
def freshIds (o : TickOut) : List String :=
  o.disps.map (fun d => "inbox-" ++ d.1)

/-- The ordering property claimed of the output list: every entry dispatched
in this tick precedes every other entry. -/
def dispatchedFirst (o : TickOut) : Prop :=
  ∀ i j : Fin o.tasks.length, (o.tasks.get i).id ∈ freshIds o →
    (o.tasks.get j).id ∉ freshIds o → i.val < j.val

/-- C5 counterexample: in the concrete two-file inbox, task.md is dispatched
this tick yet its entry is sorted after the non-dispatched done.md entry, so
dispatched-this-tick entries do not come first. -/
theorem c5_counterexample_dispatched_not_first :
    ¬ dispatchedFirst (processInbox [] 1000 [fileDone, fileTask]) := by
  intro hcl
  have h10 := hcl ⟨1, by decide⟩ ⟨0, by decide⟩ (by decide) (by decide)
  exact absurd h10 (by decide)

/-- C5 (amended): the display list is one list sorted ascending by updatedAt,
dispatched-this-tick entries carrying the tick clock; hence when every file
mtime precedes the tick clock the dispatched-this-tick entries come last
(after every other inbox task), not first, and the remainder is in ascending
mtime (FIFO) order by the C6 sortedness. -/
theorem c5_amended_dispatched_last (agents : List AgentView) (now : Nat)
    (files : List InFile)
    (hall : ∀ g ∈ files, (g.content).isSome = true)
    (hnd : (files.map InFile.name).Nodup)
    (hm : ∀ f ∈ files, f.mtimeMs < now) :
    (∀ t ∈ (processInbox agents now files).tasks,
      (t.id ∈ freshIds (processInbox agents now files) ↔ t.updatedAt = now)) ∧
    (∀ i j : Fin (processInbox agents now files).tasks.length,
      (((processInbox agents now files).tasks.get i).id
          ∈ freshIds (processInbox agents now files)) →
      (((processInbox agents now files).tasks.get j).id
          ∉ freshIds (processInbox agents now files)) →
      j.val < i.val) := by
  have hchar : ∀ t ∈ (processInbox agents now files).tasks,
      (t.id ∈ freshIds (processInbox agents now files) ↔ t.updatedAt = now) := by
    intro t ht
    rcases tasks_shape agents now files hall hnd t ht with
      ⟨f, hf, c, hc, _, hid, hcase⟩
    rcases hcase with ⟨_, hdm, _, hu⟩ | ⟨_, hno, _, hu⟩
    · refine ⟨fun _ => hu, fun _ => ?_⟩
      exact List.mem_map.2 ⟨(f.name, c), hdm, hid.symm⟩
    · constructor
      · intro hfr
        rcases List.mem_map.1 hfr with ⟨d, hdm, hdid⟩
        have hdn : d.1 = f.name :=
          string_append_left_cancel (hdid.trans hid)
        have hd' : (d.1, d.2) ∈ (processInbox agents now files).disps := by
          rw [Prod.mk.eta]
          exact hdm
        rw [hdn] at hd'
        exact absurd hd' (hno d.2)
      · intro hnow
        rw [hu] at hnow
        exact absurd hnow (Nat.ne_of_lt (hm f hf))
  refine ⟨hchar, ?_⟩
  intro i j hif hjf
  have hsort : (processInbox agents now files).tasks.Pairwise updLE := by
    rw [processInbox_eq agents now files hall]
    exact pairwise_isortBy_leU _
  have hui : ((processInbox agents now files).tasks.get i).updatedAt = now :=
    (hchar _ (List.get_mem _ _ i.isLt)).1 hif
  have hujlt : ((processInbox agents now files).tasks.get j).updatedAt < now := by
    rcases tasks_shape agents now files hall hnd _ (List.get_mem _ _ j.isLt) with
      ⟨f, hf, c, hc, _, hid, hcase⟩
    rcases hcase with ⟨_, hdm, _, hu⟩ | ⟨_, _, _, hu⟩
    · exact absurd ((hchar _ (List.get_mem _ _ j.isLt)).2 hu) hjf
    · rw [hu]
      exact hm f hf
  rcases Nat.lt_or_ge j.val i.val with hlt | hge
  · exact hlt
  · exfalso
    rcases Nat.eq_or_lt_of_le hge with heq | hlt
    · have hij : i = j := Fin.ext heq
      rw [← hij, hui] at hujlt
      exact Nat.lt_irrefl now hujlt
    · have := List.pairwise_iff_getElem.1 hsort i.val j.val i.isLt j.isLt hlt
      rw [updLE] at this
      have hgi : (processInbox agents now files).tasks[i.val] =
          (processInbox agents now files).tasks.get i := rfl
      have hgj : (processInbox agents now files).tasks[j.val] =
          (processInbox agents now files).tasks.get j := rfl
      rw [hgi, hgj, hui] at this
      exact Nat.lt_irrefl now (Nat.lt_of_le_of_lt this hujlt)

/-- Witness for the amended C5: in the concrete two-file inbox every mtime
precedes the tick clock, so the dispatched entry sorts after the other one. -/
theorem c5_amended_dispatched_last_witness :
    (∀ t ∈ (processInbox [] 1000 [fileDone, fileTask]).tasks,
      (t.id ∈ freshIds (processInbox [] 1000 [fileDone, fileTask]) ↔
        t.updatedAt = 1000)) ∧
    (∀ i j : Fin (processInbox [] 1000 [fileDone, fileTask]).tasks.length,
      (((processInbox [] 1000 [fileDone, fileTask]).tasks.get i).id
          ∈ freshIds (processInbox [] 1000 [fileDone, fileTask])) →
      (((processInbox [] 1000 [fileDone, fileTask]).tasks.get j).id
          ∉ freshIds (processInbox [] 1000 [fileDone, fileTask])) →
      j.val < i.val) :=
  c5_amended_dispatched_last [] 1000 [fileDone, fileTask]
    (by decide) (by decide) (by decide)

/-! ### Claim C7 -/

theorem length_insBy {α : Type} (le : α → α → Bool) (a : α) :
    ∀ l : List α, (insBy le a l).length = l.length + 1
  | [] => rfl
  | b :: t => by
    simp only [insBy]
    split
    · rfl
    · simp [length_insBy le a t]

theorem length_isortBy {α : Type} (le : α → α → Bool) :
    ∀ l : List α, (isortBy le l).length = l.length
  | [] => rfl
  | a :: t => by
    simp [isortBy, length_insBy, length_isortBy le t]

/-- C7 counterexample: a read failure on the first file aborts the whole
scan, so the well-formed second file produces no record at all in that tick,
although it produces one when processed alone. -/
theorem c7_counterexample_one_failure_blocks_scan :
    (processInbox [] 9 [⟨"broken.md", none, 1⟩,
        ⟨"ok.md", some "status: pending", 2⟩]).tasks = [] ∧
    (processInbox [] 9 [⟨"ok.md", some "status: pending", 2⟩]).tasks ≠ [] := by
  constructor
  · decide
  · decide

/-- C7 (amended): when every read succeeds, parsing never throws: every .md
file contributes exactly one record; a file whose metadata lacks a status
match yields the record with status unknown, and a pending file with no type
match routes with kind general to handyman.  (An I/O exception while reading
one file, however, aborts the scan for all later files: the catch wraps the
whole loop, not the per-file step.) -/
theorem c7_amended_parse_failures_degrade
    (agents : List AgentView) (now : Nat) (files : List InFile)
    (hall : ∀ g ∈ files, (g.content).isSome = true) :
    ((processInbox agents now files).tasks.length = (mdFiles files).length) ∧
    (∀ f ∈ files, jsEndsWith f.name ".md" = true → ∀ c, f.content = some c →
      findKeyVal ("status:".toList) c.toList = none →
      ({ id := "inbox-" ++ f.name, title := titleOf f.name c, status := "unknown",
         updatedAt := f.mtimeMs } : TaskEntry) ∈ (processInbox agents now files).tasks) ∧
    (∀ f ∈ files, jsEndsWith f.name ".md" = true → ∀ c, f.content = some c →
      statusOf c = "pending" → typeOf c = none →
      isBusy agents "handyman" = false →
      Effect.spawn f.name "handyman" "google-antigravity/gemini-3-pro-high"
        ∈ (processInbox agents now files).effs) := by
  refine ⟨?_, ?_, ?_⟩
  · rw [processInbox_eq agents now files hall]
    simp [length_isortBy]
  · intro f hf hmd c hc hnone
    have hstat : statusOf c = "unknown" := by rw [statusOf, hnone]
    have hw : willDispatch agents c = false := by
      simp [willDispatch, hstat]
    rw [processInbox_eq agents now files hall]
    refine (mem_isortBy leU _ _).2 ?_
    have hfm : f ∈ mdFiles files := List.mem_filter.2 ⟨hf, hmd⟩
    have hco : contOf f = c := by simp [contOf, hc]
    have he : entryOf₀ agents now f.name f.mtimeMs (contOf f) =
        { id := "inbox-" ++ f.name, title := titleOf f.name c, status := "unknown",
          updatedAt := f.mtimeMs } := by
      rw [hco, entryOf₀, if_neg (by simp [hw]), hstat]
    rw [← he]
    exact List.mem_map_of_mem _ hfm
  · intro f hf hmd c hc hp htype hfree
    have hroute : routeOf c = ("handyman", "google-antigravity/gemini-3-pro-high") := by
      rw [routeOf, htype]
      simp
    have hw : willDispatch agents c = true := by
      simp [willDispatch, hp, hroute, hfree]
    have := (dispatch_mem agents now files hall hf hmd hc hw).2.1
    rwa [hroute] at this

/-- Task file with no parseable metadata, for the C7 witness. -/
def fileNoMeta : InFile := ⟨"meta.md", some "just some notes", 3⟩

/-- Pending task file with no type key, for the C7 witness. -/
def fileNoType : InFile := ⟨"pend.md", some "status: pending", 4⟩

/-- Witness for the amended C7 on a concrete two-file inbox. -/
theorem c7_amended_parse_failures_degrade_witness :
    ((processInbox [] 9 [fileNoMeta, fileNoType]).tasks.length =
      (mdFiles [fileNoMeta, fileNoType]).length) ∧
    (∀ f ∈ [fileNoMeta, fileNoType], jsEndsWith f.name ".md" = true →
      ∀ c, f.content = some c →
      findKeyVal ("status:".toList) c.toList = none →
      ({ id := "inbox-" ++ f.name, title := titleOf f.name c, status := "unknown",
         updatedAt := f.mtimeMs } : TaskEntry)
        ∈ (processInbox [] 9 [fileNoMeta, fileNoType]).tasks) ∧
    (∀ f ∈ [fileNoMeta, fileNoType], jsEndsWith f.name ".md" = true →
      ∀ c, f.content = some c →
      statusOf c = "pending" → typeOf c = none →
      isBusy [] "handyman" = false →
      Effect.spawn f.name "handyman" "google-antigravity/gemini-3-pro-high"
        ∈ (processInbox [] 9 [fileNoMeta, fileNoType]).effs) :=
  c7_amended_parse_failures_degrade [] 9 [fileNoMeta, fileNoType] (by decide)

/-! ### Claim C8 -/

theorem getTasksGo_main_none (now : Int) (titles : String → Option String) :
    ∀ l : List Session,
      (∃ s ∈ l, s.key = some "agent:main:main" ∧ sessSkipped now s = false) →
      getTasksGo now titles l = none
  | [], h => by
    rcases h with ⟨s, hs, _⟩
    cases hs
  | s :: rest, h => by
    rw [getTasksGo]
    by_cases hskip : sessSkipped now s = true
    · rw [if_pos hskip]
      apply getTasksGo_main_none now titles rest
      rcases h with ⟨w, hw, hkey, hns⟩
      rcases List.mem_cons.1 hw with rfl | hwr
      · rw [hskip] at hns; cases hns
      · exact ⟨w, hwr, hkey, hns⟩
    · rw [if_neg hskip]
      by_cases hkey : s.key = some "agent:main:main"
      · rw [if_pos hkey]
      · rw [if_neg hkey]
        have hrest : getTasksGo now titles rest = none := by
          apply getTasksGo_main_none now titles rest
          rcases h with ⟨w, hw, hwkey, hwns⟩
          rcases List.mem_cons.1 hw with rfl | hwr
          · exact absurd hwkey hkey
          · exact ⟨w, hwr, hwkey, hwns⟩
        rw [hrest]

/-- Registry record with the primary key whose last update is old and whose
session is done, so the hidden-completed filter skips it. -/
def sessionMainOld : Session :=
  ⟨"main-id", some "agent:main:main", some "main", none, none, some 0, some 5,
    none, none, none⟩

/-- C8 counterexample: the registry contains a record with key
agent:main:main, yet getTasks does not return undefined, because the
hidden-completed filter (done and more than one hour old) skips the record
before the key check: the claim as stated fails. -/
theorem c8_counterexample_skipped_main :
    sessionMainOld.key = some "agent:main:main" ∧
    getTasks 10000000 (fun _ => none) [sessionMainOld] ≠ none := by
  constructor
  · rfl
  · decide

/-- C8 (amended): if the registry contains a record with key agent:main:main
that the hidden-completed filter does not skip, getTasks reaches it during
its iteration over the sessions sorted descending by updatedAt, executes the
bare return and yields undefined instead of a task list, so every
session-derived task and the cron entry are omitted and the orchestrator's
spread of the result fails. -/
theorem c8_amended_main_key_undefined (now : Int)
    (titles : String → Option String) (sessions : List Session)
    (inbox : List TaskEntry)
    (h : ∃ s ∈ sessions, s.key = some "agent:main:main" ∧
      sessSkipped now s = false) :
    getTasks now titles sessions = none ∧
    mergeTasks inbox (getTasks now titles sessions) = none := by
  have hmem : ∃ s ∈ isortBy sessDescLe sessions,
      s.key = some "agent:main:main" ∧ sessSkipped now s = false := by
    rcases h with ⟨s, hs, hk, hn⟩
    exact ⟨s, (mem_isortBy sessDescLe s sessions).2 hs, hk, hn⟩
  have hgo := getTasksGo_main_none now titles (isortBy sessDescLe sessions) hmem
  constructor
  · rw [getTasks, hgo]
  · rw [getTasks, hgo]
    rfl

/-- Registry record with the primary key that was updated recently, so the
hidden-completed filter does not skip it. -/
def sessionMainFresh : Session :=
  ⟨"main-id", some "agent:main:main", some "main", none, none, some 900, some 5,
    none, none, none⟩

/-- Witness for the amended C8. -/
theorem c8_amended_main_key_undefined_witness :
    getTasks 1000 (fun _ => none) [sessionMainFresh] = none ∧
    mergeTasks [] (getTasks 1000 (fun _ => none) [sessionMainFresh]) = none :=
  c8_amended_main_key_undefined 1000 (fun _ => none) [sessionMainFresh] []
    ⟨sessionMainFresh, by decide, by decide, by decide⟩

/-! ### Claim C9 -/

theorem mem_suffixGo (total : String → Nat) :
    ∀ (cur : List (String × Nat)) (l : List AgentView), ∀ a ∈ suffixGo total cur l,
      ∃ b ∈ l, a.sessionId = b.sessionId ∧ a.status = b.status ∧
        a.updatedAt = b.updatedAt
  | _, [], a, ha => by simp [suffixGo] at ha
  | cur, b :: rest, a, ha => by
    rw [suffixGo] at ha
    split at ha
    · rcases List.mem_cons.1 ha with rfl | har
      · exact ⟨b, List.mem_cons_self b rest, rfl, rfl, rfl⟩
      · rcases mem_suffixGo total _ rest a har with ⟨b', hb', he⟩
        exact ⟨b', List.mem_cons_of_mem b hb', he⟩
    · rcases List.mem_cons.1 ha with rfl | har
      · exact ⟨a, List.mem_cons_self a rest, rfl, rfl, rfl⟩
      · rcases mem_suffixGo total cur rest a har with ⟨b', hb', he⟩
        exact ⟨b', List.mem_cons_of_mem b hb', he⟩

/-- C9: for every session record in the registry, the derived worker status
is active exactly when now minus the record's updatedAt is strictly below
300000 milliseconds; a record with no updatedAt is treated as updatedAt = 0,
so whenever the clock is at least 300000 past the epoch it is idle. -/
theorem c9_active_iff (now : Int) (sessions : List Session) :
    ∀ a ∈ parseSessionsFile now sessions, ∃ s ∈ sessions,
      a.sessionId = s.sessionId ∧ a.updatedAt = s.updatedAt ∧
      (a.status = "active" ↔ now - s.updatedAt.getD 0 < 300000) ∧
      (s.updatedAt = none → 300000 ≤ now → a.status = "idle") := by
  intro a ha
  rw [parseSessionsFile] at ha
  have ha' := (mem_isortBy agentLe a _).1 ha
  rcases mem_suffixGo _ [] _ a ha' with ⟨b, hb, hid, hst, hupd⟩
  rcases List.mem_map.1 hb with ⟨s, hs, hbs⟩
  have hfields : (classifySession now s).sessionId = s.sessionId ∧
      (classifySession now s).updatedAt = s.updatedAt ∧
      (classifySession now s).status =
        (if now - s.updatedAt.getD 0 < 300000 then "active" else "idle") :=
    ⟨rfl, rfl, rfl⟩
  refine ⟨s, hs, ?_, ?_, ?_, ?_⟩
  · rw [hid, ← hbs]
    exact hfields.1
  · rw [hupd, ← hbs]
    exact hfields.2.1
  · rw [hst, ← hbs, hfields.2.2]
    by_cases hlt : now - s.updatedAt.getD 0 < 300000
    · rw [if_pos hlt]
      exact ⟨fun _ => hlt, fun _ => rfl⟩
    · rw [if_neg hlt]
      exact ⟨fun hc => absurd hc (by decide), fun hc => absurd hc hlt⟩
  · intro hnone hep
    rw [hst, ← hbs, hfields.2.2, hnone]
    have h0 : ¬ ((now - (none : Option Int).getD 0) < 300000) := by
      simp only [Option.getD_none]
      omega
    rw [if_neg h0]

/-- Handyman worker record for the C9 witness. -/
def sessionWorker : Session :=
  ⟨"w1", none, some "handyman", some "m", none, some 0, some 0, none, none, none⟩

/-- The agent view that parseSessionsFile derives from sessionWorker at
clock 400000. -/
def agentViewWorker : AgentView :=
  ⟨"w1", "雜工", "m", "idle", 400000, 0, "w1", some 0, none⟩

/-- Witness for C9. -/
theorem c9_active_iff_witness :
    ∃ s ∈ [sessionWorker], agentViewWorker.sessionId = s.sessionId ∧
      agentViewWorker.updatedAt = s.updatedAt ∧
      (agentViewWorker.status = "active" ↔
        (400000 : Int) - s.updatedAt.getD 0 < 300000) ∧
      (s.updatedAt = none → (300000 : Int) ≤ 400000 →
        agentViewWorker.status = "idle") :=
  c9_active_iff 400000 [sessionWorker] agentViewWorker (by decide)

/-! ### Claim C10 -/

/-- Splits a character list at newlines (content.split("\n")). -/
def splitNl : List Char → List (List Char)
  | [] => [[]]
  | c :: cs =>
    match splitNl cs with
    | [] => if c = '\n' then [[], []] else [[c]]
    | h :: t => if c = '\n' then [] :: h :: t else (c :: h) :: t

/-- Title rule as the spec states it: the first heading line's text when the
first line is a heading, otherwise the first non-empty line of the whole
content trimmed and truncated to 50 characters, otherwise the file name.
This definition follows the spec's words and is compared against titleOf,
the definition translated from the source. -/
def specTitleOf (name c : String) : String :=
  let fl := c.toList.takeWhile (· ≠ '\n')
  match dropLit ("# ".toList) fl with
  | some r => String.mk (jsTrimChars r)
  | none =>
    match dropLit ("## ".toList) fl with
    | some r => String.mk (jsTrimChars r)
    | none =>
      match (splitNl c.toList).find? (fun l => !(jsTrimChars l).isEmpty) with
      | some l => String.mk ((jsTrimChars l).take 50)
      | none => name

/-- C10 counterexample: for the file note.md whose content starts with an
empty line followed by a non-empty line, the spec's rule titles the task
Hello world, but the router looks only at the first line and falls back to
the file name, producing note. -/
theorem c10_counterexample_first_line_only :
    specTitleOf "note.md" "\nHello world" = "Hello world" ∧
    (processInbox [] 9 [⟨"note.md", some "\nHello world", 7⟩]).tasks.map
      TaskEntry.title = ["note"] ∧
    ("note" : String) ≠ "Hello world" := by
  refine ⟨by decide, by decide, by decide⟩

/-- C10 (amended): every record's title is derived from the file's FIRST line
only: the line's text after "# " or "## " when the first line is such a
heading, otherwise the first line trimmed and truncated to 50 characters when
it is non-blank, otherwise the file name with its first ".md" removed — a
non-empty line after a blank first line is never consulted. -/
theorem c10_amended_title_rule (agents : List AgentView) (now : Nat)
    (files : List InFile)
    (hall : ∀ g ∈ files, (g.content).isSome = true)
    (hnd : (files.map InFile.name).Nodup) :
    (∀ t ∈ (processInbox agents now files).tasks, ∃ f ∈ files, ∃ c,
      f.content = some c ∧ t.title = titleOf f.name c) ∧
    (∀ name c r,
      dropLit ("# ".toList) (c.toList.takeWhile (· ≠ '\n')) = some r →
      titleOf name c = String.mk (jsTrimChars r)) ∧
    (∀ name c r,
      dropLit ("# ".toList) (c.toList.takeWhile (· ≠ '\n')) = none →
      dropLit ("## ".toList) (c.toList.takeWhile (· ≠ '\n')) = some r →
      titleOf name c = String.mk (jsTrimChars r)) ∧
    (∀ name c,
      dropLit ("# ".toList) (c.toList.takeWhile (· ≠ '\n')) = none →
      dropLit ("## ".toList) (c.toList.takeWhile (· ≠ '\n')) = none →
      jsTrimChars (c.toList.takeWhile (· ≠ '\n')) ≠ [] →
      titleOf name c =
        String.mk ((jsTrimChars (c.toList.takeWhile (· ≠ '\n'))).take 50)) ∧
    (∀ name c,
      dropLit ("# ".toList) (c.toList.takeWhile (· ≠ '\n')) = none →
      dropLit ("## ".toList) (c.toList.takeWhile (· ≠ '\n')) = none →
      jsTrimChars (c.toList.takeWhile (· ≠ '\n')) = [] →
      titleOf name c = removeFirstMd name) := by
  refine ⟨?_, ?_, ?_, ?_, ?_⟩
  · intro t ht
    rcases tasks_shape agents now files hall hnd t ht with
      ⟨f, hf, c, hc, hte, _, _⟩
    refine ⟨f, hf, c, hc, ?_⟩
    rw [hte, entryOf₀]
    cases hw : willDispatch agents c <;> simp
  · intro name c r h1
    rw [titleOf]
    simp only [h1]
  · intro name c r h1 h2
    rw [titleOf]
    simp only [h1, h2]
  · intro name c h1 h2 h3
    rw [titleOf]
    simp only [h1, h2]
    rw [if_neg (by simpa using h3)]
  · intro name c h1 h2 h3
    rw [titleOf]
    simp only [h1, h2]
    rw [if_pos (by simpa using h3)]

/-- Witness for the amended C10 on the blank-first-line file. -/
theorem c10_amended_title_rule_witness :
    (∀ t ∈ (processInbox [] 9 [⟨"note.md", some "\nHello world", 7⟩]).tasks,
      ∃ f ∈ [(⟨"note.md", some "\nHello world", 7⟩ : InFile)], ∃ c,
      f.content = some c ∧ t.title = titleOf f.name c) ∧
    (∀ name c r,
      dropLit ("# ".toList) (c.toList.takeWhile (· ≠ '\n')) = some r →
      titleOf name c = String.mk (jsTrimChars r)) ∧
    (∀ name c r,
      dropLit ("# ".toList) (c.toList.takeWhile (· ≠ '\n')) = none →
      dropLit ("## ".toList) (c.toList.takeWhile (· ≠ '\n')) = some r →
      titleOf name c = String.mk (jsTrimChars r)) ∧
    (∀ name c,
      dropLit ("# ".toList) (c.toList.takeWhile (· ≠ '\n')) = none →
      dropLit ("## ".toList) (c.toList.takeWhile (· ≠ '\n')) = none →
      jsTrimChars (c.toList.takeWhile (· ≠ '\n')) ≠ [] →
      titleOf name c =
        String.mk ((jsTrimChars (c.toList.takeWhile (· ≠ '\n'))).take 50)) ∧
    (∀ name c,
      dropLit ("# ".toList) (c.toList.takeWhile (· ≠ '\n')) = none →
      dropLit ("## ".toList) (c.toList.takeWhile (· ≠ '\n')) = none →
      jsTrimChars (c.toList.takeWhile (· ≠ '\n')) = [] →
      titleOf name c = removeFirstMd name) :=
  c10_amended_title_rule [] 9 [⟨"note.md", some "\nHello world", 7⟩]
    (by decide) (by decide)

end Monitor
